import Mathlib

/-!
Verification of the HTrace span core (htrace-c/src/core/span.c): the
parent-identifier set with its sort-and-dedupe normalization, and the
two-pass JSON encoder (`span_json_sprintf_impl` / `span_json_size` /
`span_json_sprintf`).

Machine integers: `uint64_t` values are represented by `Nat`
representatives; wherever the C code's behaviour depends on the 64-bit
width (the `printf` conversions), the embedding applies `% 2^64`
explicitly.  Byte buffers are `List Char` (the text is ASCII except for
caller-supplied description / process-id contents, which the code copies
verbatim either way).
-/

namespace HTraceSpan

/-- The parent-identifier set of a span.  In the C struct this is the pair
of `span->num_parents` and the union `span->parent`: `num_parents == 0`
means no parent (`empty`), `num_parents == 1` means the inline
`parent.single` field is in use (`single`), and `num_parents > 1` means
`parent.list` points at a heap array of `num_parents` identifiers
(`many`, the list holding the array contents in order). -/
inductive ParentSet where
  | empty : ParentSet
  | single (id : Nat) : ParentSet
  | many (ids : List Nat) : ParentSet
deriving DecidableEq, Repr

/-- The fields of `struct htrace_span` used by span.c: owned description
text (`desc`, NULL-able in the encoder's view), begin/end times and the
span id (`uint64_t`), the optional process id (`prid`), and the parent
set. -/
structure Span where
  desc : Option String
  begin_ms : Nat
  end_ms : Nat
  span_id : Nat
  prid : Option String
  parents : ParentSet
deriving DecidableEq, Repr

/-- Number of parents: the C field `span->num_parents` as derived from the
`ParentSet` representation. -/
def num_parents : ParentSet → Nat
  | .empty => 0
  | .single _ => 1
  | .many l => l.length

/-- The parent identifiers read in order: the inline `parent.single` value
for one parent, the `parent.list` array contents for several. -/
def read_parents : ParentSet → List Nat
  | .empty => []
  | .single x => [x]
  | .many l => l

/-- Modelled from the spec: `AppendParent` (the append operation of
§4.1, whose C implementation lives outside span.c): `Empty → Single(id)`;
`Single(a) → Many([a, id])`; `Many(list) → Many(list ++ [id])`.  No dedup
or ordering is performed at append time. -/
def appendParent : ParentSet → Nat → ParentSet
  | .empty, id => .single id
  | .single a, id => .many [a, id]
  | .many l, id => .many (l ++ [id])

/-- The parent set obtained by appending the given identifiers, in order,
to an initially empty set. -/
def build_parents (ids : List Nat) : ParentSet :=
  ids.foldl appendParent .empty

/-- The qsort comparator `compare_spanids` (span.c:75): three-way unsigned
64-bit comparison of two span ids. -/
def compare_spanids (a b : Nat) : Int :=
  if a < b then -1 else if a > b then 1 else 0

/-- Ascending sort of the parent-id array, modelling the
`qsort(span->parent.list, num_parents, sizeof(uint64_t), compare_spanids)`
call (span.c:96): any comparison sort under `compare_spanids` produces
the unique ascending reordering of the array, here realised by insertion
sort. -/
def sortIds (l : List Nat) : List Nat :=
  l.insertionSort (· ≤ ·)

/-- The forward dedupe scan of span.c:97-105 after the first element:
`prev` is the last element kept so far; an element equal to `prev` is
skipped, a differing element is kept (written at the write cursor) and
becomes the new `prev`. -/
def dedupScan (prev : Nat) : List Nat → List Nat
  | [] => []
  | x :: xs => if x = prev then dedupScan prev xs else x :: dedupScan x xs

/-- The full compaction over the sorted array: the first element is always
kept (`prev = list[0]; j = 1;`), then the forward scan runs over the
rest. -/
def dedupeSorted : List Nat → List Nat
  | [] => []
  | x :: xs => x :: dedupScan x xs

/-- The normalization `htrace_span_sort_and_dedupe_parents` (span.c:88)
restricted to the parent-set component it operates on: no-op when
`num_parents <= 1`; otherwise sort, compact, and re-derive the variant
(`j == 1` collapses to the inline single representation; otherwise the
compacted array is kept, the best-effort `realloc` shrink not changing
its contents). -/
def normalizeParents (ps : ParentSet) : ParentSet :=
  match ps with
  | .empty => .empty
  | .single x => .single x
  | .many l =>
    if l.length ≤ 1 then .many l
    else
      match dedupeSorted (sortIds l) with
      | [] => .many []
      | [x] => .single x
      | x :: y :: ys => .many (x :: y :: ys)

/-- The normalization `htrace_span_sort_and_dedupe_parents` (span.c:88) as
a transformer of the whole span state: it reads and writes only
`span->num_parents` and `span->parent`. -/
def htrace_span_sort_and_dedupe_parents (sp : Span) : Span :=
  { sp with parents := normalizeParents sp.parents }

/-- The constructor `htrace_span_alloc` (span.c:38).  The two allocation
calls the C makes are represented by oracle flags: `mallocOk` is the
outcome of `malloc(sizeof(*span))` and `strdupOk` the outcome of
`strdup(desc)`; either failing makes the constructor return NULL
(`none`).  On success the fields are initialised exactly as in the
source: `begin_ms` and `span_id` from the arguments, `end_ms = 0`,
`prid = NULL`, and an empty parent set. -/
def htrace_span_alloc (mallocOk strdupOk : Bool) (desc : String)
    (begin_ms span_id : Nat) : Option Span :=
  if !mallocOk then none
  else if !strdupOk then none
  else some { desc := some desc, begin_ms := begin_ms, end_ms := 0,
              span_id := span_id, prid := none, parents := .empty }

/-- The `printf` conversion `%016 PRIx64` used for span ids (span.c:147,
160, 165): the 64-bit unsigned value printed as exactly 16 lowercase
hexadecimal digits, zero-padded on the left. -/
def fmt_x64 (n : Nat) : String :=
  let ds := Nat.toDigits 16 (n % 2 ^ 64)
  String.mk (List.replicate (16 - ds.length) '0' ++ ds)

/-- The value a `uint64_t` bit pattern denotes when consumed by the
`%PRId64` (signed 64-bit) conversion at span.c:147-149: two's-complement
reinterpretation of the stored unsigned value. -/
def int64_of_u64 (n : Nat) : Int :=
  if n % 2 ^ 64 < 2 ^ 63 then ((n % 2 ^ 64 : Nat) : Int)
  else ((n % 2 ^ 64 : Nat) : Int) - 2 ^ 64

/-- The `printf` conversion `%PRId64` applied to the `uint64_t` fields
`begin_ms` / `end_ms` (span.c:147-149): signed 64-bit decimal text. -/
def fmt_i64 (n : Nat) : String :=
  toString (int64_of_u64 n)

/-- One parent identifier as it appears inside the `p` array:
`"%016 PRIx64"` surrounded by double quotes (span.c:165). -/
def quote_parent (x : Nat) : String :=
  "\"" ++ fmt_x64 x ++ "\""

/-- The strings produced by the per-parent loop of span.c:164-168, in
order: the loop emits `%s"%016 PRIx64 "` where the leading `%s` is the
empty string on the first iteration and a comma on every later one. -/
def parent_loop_pieces : List Nat → List String
  | [] => []
  | x :: xs => quote_parent x :: xs.map (fun y => "," ++ quote_parent y)

/-- The header written by the first `fwdprintf` call (span.c:147-149):
opening brace, the `s` field as 16 hex digits, and the `b` and `e`
fields as signed 64-bit decimals, each followed by a comma. -/
def span_json_header (sp : Span) : String :=
  "\x7b\"s\":\"" ++ fmt_x64 sp.span_id ++ "\",\"b\":" ++ fmt_i64 sp.begin_ms
    ++ ",\"e\":" ++ fmt_i64 sp.end_ms ++ ","

/-- The `d` field pieces (span.c:150-152): emitted only when the
description pointer is non-NULL. -/
def desc_field_pieces (sp : Span) : List String :=
  match sp.desc with
  | some d => ["\"d\":\"" ++ d ++ "\","]
  | none => []

/-- The `r` field pieces (span.c:153-155): emitted only when the
process-id pointer is non-NULL. -/
def prid_field_pieces (sp : Span) : List String :=
  match sp.prid with
  | some r => ["\"r\":\"" ++ r ++ "\","]
  | none => []

/-- The `p` field pieces (span.c:156-170), one string per `fwdprintf`
call: `"p":[]` for no parents, the single inline id for one parent, and
for several parents the opening `"p":[`, the per-parent loop pieces, and
the closing bracket. -/
def parent_field_pieces : ParentSet → List String
  | .empty => ["\"p\":[]"]
  | .single x => ["\"p\":[\"" ++ fmt_x64 x ++ "\"]"]
  | .many l => ["\"p\":["] ++ parent_loop_pieces l ++ ["]"]

/-- The sequence of strings passed to the successive `fwdprintf` calls of
`span_json_sprintf_impl` (span.c:137-175), in order: header, optional
`d` field, optional `r` field, `p` field, closing brace. -/
def span_json_pieces (sp : Span) : List String :=
  span_json_header sp ::
    (desc_field_pieces sp ++ prid_field_pieces sp
      ++ parent_field_pieces sp.parents ++ ["\x7d"])

/-- The complete JSON text of a span (without the trailing terminator
byte): the concatenation of all the formatted pieces. -/
def span_json_text (sp : Span) : String :=
  String.join (span_json_pieces sp)

/-- The accumulated return value `ret` of `span_json_sprintf_impl` before
the final `+ 1`: each `fwdprintf` call contributes the full, unclamped
length of its formatted text regardless of remaining capacity. -/
def sum_len (ps : List String) : Nat :=
  (ps.map String.length).sum

/-- Modelled from the spec: one bounded formatting step of `fwdprintf`
(util/string.c, outside src/), per §4.3 and §9 of the spec: with
remaining capacity `rem`, a piece of length `L` contributes
`min L (rem - 1)` of its characters (the bounded primitive always keeps
one byte for the terminator it maintains), the cursor advances by the
clamped amount `min L rem`, and a spent capacity (`rem = 0`) makes the
call write nothing.  The state is the characters deposited so far and
the remaining capacity. -/
def fwdStep (st : List Char × Nat) (p : String) : List Char × Nat :=
  if st.2 = 0 then st
  else (st.1 ++ p.data.take (min p.length (st.2 - 1)), st.2 - min p.length st.2)

/-- Modelled from the spec: the buffer contents after running all the
bounded formatting calls with initial capacity `max`: the deposited
characters followed by the terminator byte the bounded primitive
maintains at the write cursor (§4.3: "a terminator byte at the last
position").  A zero capacity writes nothing at all. -/
def write_chars (ps : List String) (max : Nat) : List Char :=
  if max = 0 then []
  else (ps.foldl fwdStep ([], max)).1 ++ [Char.ofNat 0]

/-- The shared formatting routine `span_json_sprintf_impl`
(span.c:137-175): returns the pair of the total byte count `ret + 1`
(the unclamped formatted length plus one for the terminating null) and
the bytes actually deposited in a buffer of capacity `max`. -/
def span_json_sprintf_impl (sp : Span) (max : Nat) : Nat × List Char :=
  (sum_len (span_json_pieces sp) + 1, write_chars (span_json_pieces sp) max)

/-- The measuring pass `span_json_size` (span.c:177-180): the impl run
with a NULL buffer and zero capacity, keeping only the returned size. -/
def span_json_size (sp : Span) : Nat :=
  (span_json_sprintf_impl sp 0).1

/-- The writing pass `span_json_sprintf` (span.c:182-185): the impl run
against a real buffer of capacity `max`; the bytes it deposits. -/
def span_json_sprintf (sp : Span) (max : Nat) : List Char :=
  (span_json_sprintf_impl sp max).2

/-- Comma-separated join, following the spec's words for the `p` array:
"a comma-joined array" of the quoted identifiers. -/
def commaJoin : List String → String
  | [] => ""
  | [x] => x
  | x :: y :: ys => x ++ ("," ++ commaJoin (y :: ys))

/-- Modelled from the spec (§4.3 encoded shape), for comparison with the
source-derived encoder: fixed key order `s`,`b`,`e`,`d`,`r`,`p`; `d` and
`r` omitted entirely when absent; `p` always present, holding the quoted
hex identifiers of the parent set read in order, comma-joined. -/
def spec_json_shape (sp : Span) : String :=
  "\x7b\"s\":\"" ++ fmt_x64 sp.span_id ++ "\",\"b\":" ++ fmt_i64 sp.begin_ms
    ++ ",\"e\":" ++ fmt_i64 sp.end_ms ++ ","
    ++ (match sp.desc with
        | some d => "\"d\":\"" ++ d ++ "\","
        | none => "")
    ++ (match sp.prid with
        | some r => "\"r\":\"" ++ r ++ "\","
        | none => "")
    ++ "\"p\":[" ++ commaJoin ((read_parents sp.parents).map quote_parent) ++ "]\x7d"

/-- The concrete span of the spec's first encoder scenario: `span_id=1`,
`begin_ms=100`, `end_ms=200`, description `"foo"`, no process id, no
parents. -/
def c6span : Span :=
  { desc := some "foo", begin_ms := 100, end_ms := 200, span_id := 1,
    prid := none, parents := .empty }

/-- The expected JSON text of that scenario. -/
def c6text : String :=
  "\x7b\"s\":\"0000000000000001\",\"b\":100,\"e\":200,\"d\":\"foo\",\"p\":[]\x7d"

/-- A concrete span whose `begin_ms` lies at the unsigned 64-bit maximum,
above the signed range, while `end_ms` still holds the `0` sentinel a
freshly allocated span carries (span.c:53). -/
def c10span : Span :=
  { desc := none, begin_ms := 2 ^ 64 - 1, end_ms := 0, span_id := 0,
    prid := none, parents := .empty }

/-- A concrete span whose `end_ms` lies above the signed 64-bit range
while `begin_ms` does not. -/
def c10span2 : Span :=
  { desc := none, begin_ms := 0, end_ms := 2 ^ 63, span_id := 0,
    prid := none, parents := .empty }

theorem foldl_appendParent_many (ids : List Nat) :
    ∀ l : List Nat, ids.foldl appendParent (.many l) = .many (l ++ ids) := by
  induction ids with
  | nil => intro l; simp [List.foldl]
  | cons x xs ih =>
    intro l
    simp only [List.foldl, appendParent]
    rw [ih]
    simp

theorem build_parents_two (x y : Nat) (rest : List Nat) :
    build_parents (x :: y :: rest) = .many (x :: y :: rest) := by
  show (rest.foldl appendParent (.many [x, y])) = .many (x :: y :: rest)
  rw [foldl_appendParent_many]
  rfl

theorem sortIds_sorted (l : List Nat) : (sortIds l).Sorted (· ≤ ·) :=
  List.sorted_insertionSort _ l

theorem mem_sortIds {l : List Nat} {x : Nat} : x ∈ sortIds l ↔ x ∈ l :=
  List.mem_insertionSort _

theorem sortIds_length (l : List Nat) : (sortIds l).length = l.length :=
  List.length_insertionSort _ l

theorem sortIds_of_sorted {l : List Nat} (h : l.Sorted (· ≤ ·)) : sortIds l = l :=
  h.insertionSort_eq

theorem dedupScan_cons_eq (prev : Nat) (xs : List Nat) :
    dedupScan prev (prev :: xs) = dedupScan prev xs := by
  simp [dedupScan]

theorem dedupScan_cons_ne {x prev : Nat} (h : x ≠ prev) (xs : List Nat) :
    dedupScan prev (x :: xs) = x :: dedupScan x xs := by
  simp [dedupScan, h]

theorem dedupScan_spec :
    ∀ (l : List Nat) (prev : Nat), l.Sorted (· ≤ ·) → (∀ x ∈ l, prev ≤ x) →
      (dedupScan prev l).Sorted (· < ·) ∧ (∀ y ∈ dedupScan prev l, prev < y) ∧
      (∀ y, y ∈ dedupScan prev l ↔ y ∈ l ∧ y ≠ prev) := by
  intro l
  induction l with
  | nil =>
    intro prev _ _
    refine ⟨List.sorted_nil, ?_, ?_⟩ <;> simp [dedupScan]
  | cons x xs ih =>
    intro prev hs hb
    rw [List.sorted_cons] at hs
    obtain ⟨hx, hxs⟩ := hs
    by_cases hxp : x = prev
    · subst hxp
      rw [dedupScan_cons_eq]
      obtain ⟨s1, s2, s3⟩ := ih x hxs hx
      refine ⟨s1, s2, ?_⟩
      intro y
      rw [s3 y, List.mem_cons]
      constructor
      · rintro ⟨hy, hne⟩
        exact ⟨Or.inr hy, hne⟩
      · rintro ⟨hy | hy, hne⟩
        · exact absurd hy hne
        · exact ⟨hy, hne⟩
    · have hpx : prev < x :=
        lt_of_le_of_ne (hb x (List.mem_cons_self x xs)) (Ne.symm hxp)
      rw [dedupScan_cons_ne hxp]
      obtain ⟨s1, s2, s3⟩ := ih x hxs hx
      refine ⟨?_, ?_, ?_⟩
      · rw [List.sorted_cons]
        exact ⟨s2, s1⟩
      · intro y hy
        rcases List.mem_cons.mp hy with rfl | hy
        · exact hpx
        · exact lt_trans hpx (s2 y hy)
      · intro y
        rw [List.mem_cons, s3 y, List.mem_cons]
        constructor
        · rintro (rfl | ⟨hy, hne⟩)
          · exact ⟨Or.inl rfl, Ne.symm (ne_of_lt hpx)⟩
          · refine ⟨Or.inr hy, ?_⟩
            exact Ne.symm (ne_of_lt (lt_of_lt_of_le hpx (hx y hy)))
        · rintro ⟨rfl | hy, hne⟩
          · exact Or.inl rfl
          · by_cases hyx : y = x
            · exact Or.inl hyx
            · exact Or.inr ⟨hy, hyx⟩

theorem dedupeSorted_spec (l : List Nat) (h : l.Sorted (· ≤ ·)) :
    (dedupeSorted l).Sorted (· < ·) ∧ (∀ y, y ∈ dedupeSorted l ↔ y ∈ l) := by
  cases l with
  | nil => exact ⟨List.sorted_nil, by simp [dedupeSorted]⟩
  | cons a t =>
    rw [List.sorted_cons] at h
    obtain ⟨ha, ht⟩ := h
    obtain ⟨s1, s2, s3⟩ := dedupScan_spec t a ht ha
    refine ⟨?_, ?_⟩
    · show (a :: dedupScan a t).Sorted (· < ·)
      rw [List.sorted_cons]
      exact ⟨s2, s1⟩
    · intro y
      show y ∈ a :: dedupScan a t ↔ y ∈ a :: t
      rw [List.mem_cons, List.mem_cons, s3 y]
      constructor
      · rintro (rfl | ⟨hy, _⟩)
        · exact Or.inl rfl
        · exact Or.inr hy
      · rintro (rfl | hy)
        · exact Or.inl rfl
        · by_cases hya : y = a
          · exact Or.inl hya
          · exact Or.inr ⟨hy, hya⟩

theorem dedupScan_of_chain :
    ∀ (l : List Nat) (prev : Nat), l.Sorted (· < ·) → (∀ x ∈ l, prev < x) →
      dedupScan prev l = l := by
  intro l
  induction l with
  | nil => intro prev _ _; rfl
  | cons x xs ih =>
    intro prev hs hb
    rw [List.sorted_cons] at hs
    have hne : x ≠ prev := Ne.symm (ne_of_lt (hb x (List.mem_cons_self x xs)))
    simp only [dedupScan, if_neg hne]
    rw [ih x hs.2 hs.1]

theorem dedupeSorted_of_chain {l : List Nat} (h : l.Sorted (· < ·)) :
    dedupeSorted l = l := by
  cases l with
  | nil => rfl
  | cons a t =>
    rw [List.sorted_cons] at h
    show a :: dedupScan a t = a :: t
    rw [dedupScan_of_chain t a h.2 h.1]

theorem normalizeParents_many_eq (l : List Nat) (h2 : 2 ≤ l.length) :
    normalizeParents (.many l) =
      (match dedupeSorted (sortIds l) with
        | [] => ParentSet.many []
        | [x] => ParentSet.single x
        | x :: y :: ys => ParentSet.many (x :: y :: ys)) := by
  show (if l.length ≤ 1 then ParentSet.many l else _) = _
  rw [if_neg (by omega)]

theorem dedupeSorted_sortIds_ne_nil {l : List Nat} (h : l ≠ []) :
    dedupeSorted (sortIds l) ≠ [] := by
  intro hcon
  cases hs : sortIds l with
  | nil =>
    have := sortIds_length l
    rw [hs] at this
    exact h (List.eq_nil_of_length_eq_zero this.symm)
  | cons a t =>
    rw [hs] at hcon
    exact List.cons_ne_nil a (dedupScan a t) hcon

theorem read_parents_normalize_many (l : List Nat) (h2 : 2 ≤ l.length) :
    read_parents (normalizeParents (.many l)) = dedupeSorted (sortIds l) := by
  rw [normalizeParents_many_eq l h2]
  cases hd : dedupeSorted (sortIds l) with
  | nil => rfl
  | cons x t => cases t <;> rfl

/-- C1: for every non-empty sequence of parent identifiers appended to a
span, after `htrace_span_sort_and_dedupe_parents` the resulting parent
identifiers, read in order, are strictly ascending (under the unsigned
64-bit order modelled by `<` on the `Nat` representatives, the order
`compare_spanids` decides) and are exactly the set of distinct values
that were appended. -/
theorem normalize_sorts_and_dedupes (ids : List Nat) (hne : ids ≠ []) :
    (read_parents (normalizeParents (build_parents ids))).Sorted (· < ·) ∧
    ∀ x, x ∈ read_parents (normalizeParents (build_parents ids)) ↔ x ∈ ids := by
  match ids with
  | [] => exact absurd rfl hne
  | [x] =>
    refine ⟨List.sorted_singleton x, ?_⟩
    intro y
    show y ∈ [x] ↔ y ∈ [x]
    exact Iff.rfl
  | x :: y :: rest =>
    rw [build_parents_two]
    rw [read_parents_normalize_many _ (by simp)]
    obtain ⟨s1, s2⟩ := dedupeSorted_spec _ (sortIds_sorted (x :: y :: rest))
    refine ⟨s1, ?_⟩
    intro z
    rw [s2 z, mem_sortIds]

theorem normalize_sorts_and_dedupes_witness :
    (read_parents (normalizeParents (build_parents [2, 1]))).Sorted (· < ·) :=
  (normalize_sorts_and_dedupes [2, 1] (by decide)).1

/-- C2: after normalization the representation invariant holds: a `many`
variant reached from a sequence of appends is strictly sorted (hence
duplicate-free) and holds at least 2 elements; and appending parents
`[9, 9]` then normalizing collapses to `single 9`, not `many`. -/
theorem normalize_invariant :
    (∀ ids l : List Nat, normalizeParents (build_parents ids) = .many l →
      l.Sorted (· < ·) ∧ l.Nodup ∧ 2 ≤ l.length) ∧
    normalizeParents (build_parents [9, 9]) = .single 9 := by
  constructor
  · intro ids l h
    match ids with
    | [] => exact ParentSet.noConfusion h
    | [x] => exact ParentSet.noConfusion h
    | x :: y :: rest =>
      rw [build_parents_two, normalizeParents_many_eq _ (by simp)] at h
      obtain ⟨s1, _⟩ := dedupeSorted_spec _ (sortIds_sorted (x :: y :: rest))
      cases hd : dedupeSorted (sortIds (x :: y :: rest)) with
      | nil => exact absurd hd (dedupeSorted_sortIds_ne_nil (by simp))
      | cons a t =>
        cases t with
        | nil =>
          rw [hd] at h
          exact absurd h (by simp)
        | cons b t2 =>
          rw [hd] at h
          have hl : l = a :: b :: t2 := by
            cases h
            rfl
          subst hl
          rw [hd] at s1
          refine ⟨s1, s1.nodup, by simp⟩
  · decide

theorem normalize_invariant_witness :
    ([1, 2] : List Nat).Sorted (· < ·) ∧ ([1, 2] : List Nat).Nodup ∧
      2 ≤ ([1, 2] : List Nat).length :=
  normalize_invariant.1 [1, 2] [1, 2] (by decide)

theorem normalizeParents_idem (ps : ParentSet) :
    normalizeParents (normalizeParents ps) = normalizeParents ps := by
  cases ps with
  | empty => rfl
  | single x => rfl
  | many l =>
    by_cases hl : l.length ≤ 1
    · have h1 : normalizeParents (ParentSet.many l) = ParentSet.many l := by
        show (if l.length ≤ 1 then ParentSet.many l else _) = ParentSet.many l
        rw [if_pos hl]
      rw [h1]
      exact h1
    · have h2 : 2 ≤ l.length := by omega
      rw [normalizeParents_many_eq l h2]
      obtain ⟨s1, _⟩ := dedupeSorted_spec _ (sortIds_sorted l)
      cases hd : dedupeSorted (sortIds l) with
      | nil => rfl
      | cons a t =>
        cases t with
        | nil => rfl
        | cons b t2 =>
          rw [hd] at s1
          rw [normalizeParents_many_eq _ (by simp)]
          rw [sortIds_of_sorted (s1.imp le_of_lt), dedupeSorted_of_chain s1]

/-- C5: for any sequence of appended parent identifiers (including empty,
single-element, and duplicate-containing sequences), running the
normalization twice yields a `ParentSet` state identical to running it
once; a second call on already-sorted-and-unique input is a no-op. -/
theorem normalize_idempotent (ids : List Nat) :
    normalizeParents (normalizeParents (build_parents ids)) =
      normalizeParents (build_parents ids) :=
  normalizeParents_idem (build_parents ids)

/-- C7: appending parents `[5, 3, 5, 3, 7]` and normalizing yields
`many [3, 5, 7]`, and the encoded `p` field is exactly
`["0000000000000003","0000000000000005","0000000000000007"]`. -/
theorem normalize_dedup_scenario :
    normalizeParents (build_parents [5, 3, 5, 3, 7]) = .many [3, 5, 7] ∧
    String.join (parent_field_pieces
        (normalizeParents (build_parents [5, 3, 5, 3, 7]))) =
      "\"p\":[\"0000000000000003\",\"0000000000000005\",\"0000000000000007\"]" := by
  constructor
  · decide
  · decide

/-- C9 (frame): `htrace_span_sort_and_dedupe_parents` modifies only the
parent set: the span id, begin and end times, description, and process
id of every span are unchanged by the call (the function reads and
writes only `span->num_parents` and `span->parent`). -/
theorem normalize_frame (sp : Span) :
    (htrace_span_sort_and_dedupe_parents sp).span_id = sp.span_id ∧
    (htrace_span_sort_and_dedupe_parents sp).begin_ms = sp.begin_ms ∧
    (htrace_span_sort_and_dedupe_parents sp).end_ms = sp.end_ms ∧
    (htrace_span_sort_and_dedupe_parents sp).desc = sp.desc ∧
    (htrace_span_sort_and_dedupe_parents sp).prid = sp.prid :=
  ⟨rfl, rfl, rfl, rfl, rfl⟩

/-- C8 counterexample: `htrace_span_alloc` also fails when the
`malloc(sizeof(*span))` of the record itself fails (span.c:43-46), even
though the description copy would succeed (`strdup` oracle `true`), so
construction does not fail *only* when the owning description copy
cannot be allocated. -/
theorem alloc_fails_without_desc_copy_failure :
    htrace_span_alloc false true "foo" 100 1 = none :=
  rfl

/-- C8 amended: `htrace_span_alloc` fails exactly when the record
allocation or the owning description copy fails; when it succeeds, the
returned span has `end_ms = 0`, an absent process id, an empty parent
set, the copied description, and the supplied begin time and span id. -/
theorem alloc_spec (mallocOk strdupOk : Bool) (d : String) (b i : Nat) :
    (htrace_span_alloc mallocOk strdupOk d b i = none ↔
      mallocOk = false ∨ strdupOk = false) ∧
    ∀ sp, htrace_span_alloc mallocOk strdupOk d b i = some sp →
      sp.end_ms = 0 ∧ sp.prid = none ∧ sp.parents = .empty ∧
      sp.desc = some d ∧ sp.begin_ms = b ∧ sp.span_id = i := by
  constructor
  · cases mallocOk <;> cases strdupOk <;> simp [htrace_span_alloc]
  · intro sp hsp
    cases mallocOk with
    | false => exact absurd hsp (by simp [htrace_span_alloc])
    | true =>
      cases strdupOk with
      | false => exact absurd hsp (by simp [htrace_span_alloc])
      | true =>
        injection hsp with h
        subst h
        exact ⟨rfl, rfl, rfl, rfl, rfl, rfl⟩

/-- The span produced by a fully successful `htrace_span_alloc` with
description `"foo"`, begin time 100 and span id 1. -/
def c8span : Span :=
  { desc := some "foo", begin_ms := 100, end_ms := 0,
    span_id := 1, prid := none, parents := .empty }

theorem alloc_spec_witness :
    c8span.end_ms = 0 ∧ c8span.prid = none ∧ c8span.parents = .empty ∧
      c8span.desc = some "foo" ∧ c8span.begin_ms = 100 ∧ c8span.span_id = 1 :=
  (alloc_spec true true "foo" 100 1).2 c8span rfl

theorem join_cons (p : String) (ps : List String) :
    String.join (p :: ps) = p ++ String.join ps := by
  apply String.ext
  simp [String.join_eq, String.data_append]

theorem join_append (ps qs : List String) :
    String.join (ps ++ qs) = String.join ps ++ String.join qs := by
  apply String.ext
  simp [String.join_eq, String.data_append]

theorem join_singleton (p : String) : String.join [p] = p := by
  apply String.ext
  simp [String.join_eq]

theorem sum_len_cons (p : String) (ps : List String) :
    sum_len (p :: ps) = p.length + sum_len ps := by
  simp [sum_len]

theorem join_data_length (ps : List String) :
    (String.join ps).data.length = sum_len ps := by
  induction ps with
  | nil => rfl
  | cons p t ih =>
    rw [join_cons, String.data_append, List.length_append, ih, sum_len_cons]
    rfl

theorem fwdStep_zero (cs : List Char) (p : String) : fwdStep (cs, 0) p = (cs, 0) := by
  simp [fwdStep]

theorem fwdStep_pos (cs : List Char) {rem : Nat} (p : String) (h : rem ≠ 0) :
    fwdStep (cs, rem) p =
      (cs ++ p.data.take (min p.length (rem - 1)), rem - min p.length rem) := by
  simp [fwdStep, h]

theorem fwdStep_of_fits (cs : List Char) {rem : Nat} (p : String)
    (h : p.length < rem) :
    fwdStep (cs, rem) p = (cs ++ p.data, rem - p.length) := by
  rw [fwdStep_pos cs p (by omega)]
  have hlen : p.length = p.data.length := rfl
  have h1 : min p.length (rem - 1) = p.data.length := by omega
  have h2 : min p.length rem = p.length := by omega
  rw [h1, h2, List.take_length]

theorem foldl_fwdStep_full :
    ∀ (ps : List String) (cs : List Char) (rem : Nat), sum_len ps < rem →
      ps.foldl fwdStep (cs, rem) = (cs ++ (String.join ps).data, rem - sum_len ps) := by
  intro ps
  induction ps with
  | nil =>
    intro cs rem _
    show (cs, rem) = (cs ++ ("" : String).data, rem - sum_len [])
    simp [sum_len]
  | cons p t ih =>
    intro cs rem h
    rw [sum_len_cons] at h
    rw [List.foldl_cons, fwdStep_of_fits cs p (by omega),
      ih (cs ++ p.data) (rem - p.length) (by omega)]
    rw [join_cons, String.data_append, sum_len_cons, Prod.mk.injEq]
    constructor
    · rw [List.append_assoc]
    · omega

theorem foldl_fwdStep_length_le :
    ∀ (ps : List String) (cs : List Char) (rem : Nat),
      (ps.foldl fwdStep (cs, rem)).1.length + 1 ≤ cs.length + max rem 1 := by
  intro ps
  induction ps with
  | nil =>
    intro cs rem
    show cs.length + 1 ≤ cs.length + max rem 1
    omega
  | cons p t ih =>
    intro cs rem
    rw [List.foldl_cons]
    by_cases h0 : rem = 0
    · subst h0
      rw [fwdStep_zero]
      exact ih cs 0
    · rw [fwdStep_pos cs p h0]
      refine le_trans (ih _ _) ?_
      rw [List.length_append, List.length_take]
      have hlen : p.length = p.data.length := rfl
      rw [← hlen]
      omega

theorem write_chars_full (ps : List String) :
    write_chars ps (sum_len ps + 1) = (String.join ps).data ++ [Char.ofNat 0] := by
  unfold write_chars
  rw [if_neg (by omega)]
  rw [foldl_fwdStep_full ps [] (sum_len ps + 1) (by omega)]
  rw [List.nil_append]

theorem write_chars_length_le (ps : List String) (k : Nat) :
    (write_chars ps k).length ≤ k := by
  unfold write_chars
  by_cases h0 : k = 0
  · rw [if_pos h0]
    simp [h0]
  · rw [if_neg h0]
    rw [List.length_append]
    have hb := foldl_fwdStep_length_le ps [] k
    rw [List.length_nil] at hb
    simp only [List.length_cons, List.length_nil]
    omega

theorem join_parent_tail :
    ∀ (ys : List Nat) (x : Nat),
      quote_parent x ++ String.join (ys.map fun y => "," ++ quote_parent y) =
        commaJoin ((x :: ys).map quote_parent) := by
  intro ys
  induction ys with
  | nil =>
    intro x
    show quote_parent x ++ String.join [] = commaJoin [quote_parent x]
    apply String.ext
    simp [String.join_eq, String.data_append, commaJoin]
  | cons y t ih =>
    intro x
    show quote_parent x ++
        String.join (("," ++ quote_parent y) :: (t.map fun z => "," ++ quote_parent z)) =
      quote_parent x ++ ("," ++ commaJoin (quote_parent y :: t.map quote_parent))
    have ih2 := ih y
    rw [List.map_cons] at ih2
    rw [join_cons, ← ih2]
    apply String.ext
    simp [String.data_append, List.append_assoc]

theorem join_parent_loop (l : List Nat) :
    String.join (parent_loop_pieces l) = commaJoin (l.map quote_parent) := by
  cases l with
  | nil => rfl
  | cons x xs =>
    show String.join (quote_parent x :: (xs.map fun y => "," ++ quote_parent y)) = _
    rw [join_cons, join_parent_tail xs x]

theorem join_parent_field (ps : ParentSet) :
    String.join (parent_field_pieces ps) =
      "\"p\":[" ++ commaJoin ((read_parents ps).map quote_parent) ++ "]" := by
  cases ps with
  | empty =>
    apply String.ext
    simp [parent_field_pieces, read_parents, String.join_eq, String.data_append, commaJoin]
  | single x =>
    show String.join ["\"p\":[\"" ++ fmt_x64 x ++ "\"]"] = _
    rw [join_singleton]
    show _ = "\"p\":[" ++ commaJoin [quote_parent x] ++ "]"
    apply String.ext
    simp [String.data_append, commaJoin, quote_parent]
  | many l =>
    show String.join ("\"p\":[" :: (parent_loop_pieces l ++ ["]"])) = _
    rw [join_cons, join_append, join_singleton, join_parent_loop]
    apply String.ext
    simp [String.data_append, List.append_assoc, read_parents]

theorem join_desc_field (sp : Span) :
    String.join (desc_field_pieces sp) =
      (match sp.desc with
        | some d => "\"d\":\"" ++ d ++ "\","
        | none => "") := by
  cases h : sp.desc with
  | none => simp only [desc_field_pieces, h]; rfl
  | some d => simp only [desc_field_pieces, h]; exact join_singleton _

theorem join_prid_field (sp : Span) :
    String.join (prid_field_pieces sp) =
      (match sp.prid with
        | some r => "\"r\":\"" ++ r ++ "\","
        | none => "") := by
  cases h : sp.prid with
  | none => simp only [prid_field_pieces, h]; rfl
  | some r => simp only [prid_field_pieces, h]; exact join_singleton _

theorem span_json_text_shape (sp : Span) :
    span_json_text sp = spec_json_shape sp := by
  unfold span_json_text span_json_pieces spec_json_shape span_json_header
  rw [join_cons, join_append, join_append, join_append, join_singleton,
    join_desc_field, join_prid_field, join_parent_field]
  apply String.ext
  simp [String.data_append, List.append_assoc]

/-- C3: for every span state, writing with a buffer of exactly
`span_json_size` bytes returns that same size, the buffer contents are
the JSON text of the mandated shape (fixed key order `s,b,e,d,r,p`, `d`
and `r` omitted when absent, `p` always present) followed by the
terminator byte at the last position, and the measured size is the
visible JSON length plus one trailing terminator byte. -/
theorem measure_write_agreement (sp : Span) :
    (span_json_sprintf_impl sp (span_json_size sp)).1 = span_json_size sp ∧
    span_json_sprintf sp (span_json_size sp) =
      (span_json_text sp).data ++ [Char.ofNat 0] ∧
    (span_json_text sp).data.length + 1 = span_json_size sp ∧
    span_json_text sp = spec_json_shape sp := by
  refine ⟨rfl, ?_, ?_, span_json_text_shape sp⟩
  · show write_chars (span_json_pieces sp) (sum_len (span_json_pieces sp) + 1) = _
    rw [write_chars_full]
    rfl
  · show (String.join (span_json_pieces sp)).data.length + 1 =
      sum_len (span_json_pieces sp) + 1
    rw [join_data_length]

/-- C4: for every span and every capacity `k` below the measured size,
the write pass deposits at most `k` bytes into the buffer and the
formatting routine still returns the would-have-been total
`span_json_size`; insufficient capacity is silent truncation, never a
fault. -/
theorem truncation_safety (sp : Span) (k : Nat) (_hk : k < span_json_size sp) :
    (span_json_sprintf sp k).length ≤ k ∧
    (span_json_sprintf_impl sp k).1 = span_json_size sp :=
  ⟨write_chars_length_le _ k, rfl⟩

theorem truncation_safety_witness :
    (span_json_sprintf c6span 5).length ≤ 5 ∧
    (span_json_sprintf_impl c6span 5).1 = span_json_size c6span :=
  truncation_safety c6span 5 (by decide)

set_option maxRecDepth 8000

/-- C6: for the span with `span_id=1`, `begin_ms=100`, `end_ms=200`,
description `"foo"`, no process id, and no parents, the measuring pass
returns the length of
`{"s":"0000000000000001","b":100,"e":200,"d":"foo","p":[]}` plus 1, and
writing with exactly that capacity produces exactly that text followed
by a terminator byte. -/
theorem concrete_encode_scenario :
    span_json_size c6span = c6text.length + 1 ∧
    span_json_sprintf c6span (c6text.length + 1) = c6text.data ++ [Char.ofNat 0] := by
  constructor <;> decide

theorem fmt_i64_signed {m : Nat} (h1 : 2 ^ 63 ≤ m) (h2 : m < 2 ^ 64) :
    fmt_i64 m = toString ((m : Int) - 2 ^ 64) := by
  unfold fmt_i64 int64_of_u64
  rw [Nat.mod_eq_of_lt h2, if_neg (by omega)]

theorem toString_int_neg {m : Nat} (h1 : 2 ^ 63 ≤ m) (h2 : m < 2 ^ 64) :
    toString ((m : Int) - 2 ^ 64) = "-" ++ toString (2 ^ 64 - m) := by
  have hneg : (m : Int) - 2 ^ 64 = Int.negSucc (2 ^ 64 - 1 - m) := by
    rw [Int.negSucc_eq]
    omega
  rw [hneg]
  show "-" ++ Nat.repr ((2 ^ 64 - 1 - m) + 1) = "-" ++ toString (2 ^ 64 - m)
  have h3 : (2 ^ 64 - 1 - m) + 1 = 2 ^ 64 - m := by omega
  rw [h3]
  rfl

/-- C10: although `begin_ms` and `end_ms` are stored as unsigned 64-bit
values, the encoder formats them through the signed 64-bit conversion,
field by field: for every span whose `begin_ms` is at least `2^63`, the
emitted `b` field is the negative decimal value `begin_ms - 2^64`,
rendered as a minus sign followed by the digits of `2^64 - begin_ms` and
not the stored unsigned value, whatever `end_ms` holds; and likewise,
independently, for every span whose `end_ms` is at least `2^63`, the
emitted `e` field is the negative decimal value `end_ms - 2^64`,
whatever `begin_ms` holds. -/
theorem signed_time_formatting (sp : Span) :
    (2 ^ 63 ≤ sp.begin_ms → sp.begin_ms < 2 ^ 64 →
      fmt_i64 sp.begin_ms = toString ((sp.begin_ms : Int) - 2 ^ 64) ∧
      span_json_header sp =
        "\x7b\"s\":\"" ++ fmt_x64 sp.span_id ++ "\",\"b\":-"
          ++ toString (2 ^ 64 - sp.begin_ms) ++ ",\"e\":"
          ++ fmt_i64 sp.end_ms ++ ",") ∧
    (2 ^ 63 ≤ sp.end_ms → sp.end_ms < 2 ^ 64 →
      fmt_i64 sp.end_ms = toString ((sp.end_ms : Int) - 2 ^ 64) ∧
      span_json_header sp =
        "\x7b\"s\":\"" ++ fmt_x64 sp.span_id ++ "\",\"b\":"
          ++ fmt_i64 sp.begin_ms ++ ",\"e\":-"
          ++ toString (2 ^ 64 - sp.end_ms) ++ ",") := by
  constructor
  · intro hb1 hb2
    refine ⟨fmt_i64_signed hb1 hb2, ?_⟩
    unfold span_json_header
    rw [fmt_i64_signed hb1 hb2, toString_int_neg hb1 hb2]
    apply String.ext
    simp [String.data_append, List.append_assoc]
  · intro he1 he2
    refine ⟨fmt_i64_signed he1 he2, ?_⟩
    unfold span_json_header
    rw [fmt_i64_signed he1 he2, toString_int_neg he1 he2]
    apply String.ext
    simp [String.data_append, List.append_assoc]

theorem signed_time_formatting_witness :
    (fmt_i64 c10span.begin_ms = toString ((c10span.begin_ms : Int) - 2 ^ 64) ∧
      span_json_header c10span =
        "\x7b\"s\":\"" ++ fmt_x64 c10span.span_id ++ "\",\"b\":-"
          ++ toString (2 ^ 64 - c10span.begin_ms) ++ ",\"e\":"
          ++ fmt_i64 c10span.end_ms ++ ",") ∧
    (fmt_i64 c10span2.end_ms = toString ((c10span2.end_ms : Int) - 2 ^ 64) ∧
      span_json_header c10span2 =
        "\x7b\"s\":\"" ++ fmt_x64 c10span2.span_id ++ "\",\"b\":"
          ++ fmt_i64 c10span2.begin_ms ++ ",\"e\":-"
          ++ toString (2 ^ 64 - c10span2.end_ms) ++ ",") :=
  ⟨(signed_time_formatting c10span).1 (by decide) (by decide),
   (signed_time_formatting c10span2).2 (by decide) (by decide)⟩

end HTraceSpan
